import Mathlib

/-! Verification of `temporal_degree_centrality` (overtime).

A shallow embedding of `overtime/algorithms/centrality/degree.py` and of the
minimal temporal-graph abstraction it uses, together with proofs and
refutations of the specified properties.

The Python function operates on a `TemporalGraph` whose code is not part of
the fragment under verification; that collaborator is modelled from the
specification (node enumeration, edge enumeration as
`(node1_label, node2_label, timestamp)` tuples, interval-restricted subgraph
extraction, and min/max timestamp queries).  The scoring function itself is
translated statement by statement from the Python source; Python runtime
errors (`KeyError`, `ZeroDivisionError`, `UnboundLocalError`, and the error
raised by a min/max query on an empty edge list) are made explicit in an
`Except` result.
-/

namespace Overtime

/-- An undirected temporal edge: two endpoint labels and a timestamp. -/
structure TemporalEdge where
  node1 : String
  node2 : String
  time : Int
deriving DecidableEq

/-- A temporal graph: the list of node labels (`graph.nodes.labels()`, in
enumeration order) and the list of edges (`graph.edges.aslist()`). -/
structure TemporalGraph where
  nodes : List String
  edges : List TemporalEdge
deriving DecidableEq

/-- The Python runtime errors the function can raise. -/
inductive PyErr where
  | keyError : String → PyErr
  | zeroDivisionError : PyErr
  | unboundLocalError : PyErr
  | emptyEdgesError : PyErr
deriving DecidableEq

/-- Whether timestamp `t` falls inside the union of the half-open
windows `ivs`. -/
def inIntervals (ivs : List (Int × Int)) (t : Int) : Bool :=
  ivs.any (fun iv => decide (iv.1 ≤ t) && decide (t < iv.2))

/-- Modelled from the spec: `graph.get_temporal_subgraph(intervals)` is the
interval-restricted subgraph — it keeps the node list and keeps exactly the
edges whose timestamp lies in the union of the given `(start, end)` windows
(half-open, matching the spec scenario in which `intervals=((0,3),)` retains
`t=1,2` and drops `t=3`). -/
def TemporalGraph.get_temporal_subgraph (g : TemporalGraph) (ivs : List (Int × Int)) :
    TemporalGraph :=
  { nodes := g.nodes, edges := g.edges.filter (fun e => inIntervals ivs e.time) }

/-- Line 52–53 of the source: `if intervals: graph = graph.get_temporal_subgraph(intervals)`.
Python truthiness: `None` and the empty tuple are both falsy. -/
def applyIntervals (g : TemporalGraph) (intervals : Option (List (Int × Int))) :
    TemporalGraph :=
  match intervals with
  | some ivs => if ivs.isEmpty then g else g.get_temporal_subgraph ivs
  | none => g

/-- Line 56–57 of the source: `if not labels: labels = graph.nodes.labels()`.
Python truthiness: `None` and the empty list are both falsy. -/
def workingLabels (g : TemporalGraph) (labels : Option (List String)) : List String :=
  match labels with
  | some ls => if ls.isEmpty then g.nodes else ls
  | none => g.nodes

/-- The timestamps of a list of edges. -/
def timestamps (es : List TemporalEdge) : List Int :=
  es.map (fun e => e.time)

/-- Modelled from the spec: `graph.edges.start()`, the minimum timestamp
across current edges; undefined (a runtime error) when there are no edges. -/
def edgesStart (es : List TemporalEdge) : Option Int :=
  (timestamps es).min?

/-- Modelled from the spec: `graph.edges.end()`, the maximum timestamp
across current edges; undefined (a runtime error) when there are no edges. -/
def edgesEnd (es : List TemporalEdge) : Option Int :=
  (timestamps es).max?

/-- One step of the Python dict comprehension `{label: 0 for label in labels}`:
a repeated key keeps its original (first-occurrence) position, and every
value is `0`. -/
def dictInsert0 (d : List (String × Nat)) (l : String) : List (String × Nat) :=
  if d.any (fun p => p.1 == l) then d else d ++ [(l, 0)]

/-- Line 60 of the source: `node_count = {label: 0 for label in labels}`,
as an insertion-ordered association list. -/
def dictInit (ls : List String) : List (String × Nat) :=
  ls.foldl dictInsert0 []

/-- The Python statement `node_count[label] += 1` on a plain dict: increment
the entry for a present key in place, raise `KeyError` for an absent key. -/
def dictIncr : List (String × Nat) → String → Except PyErr (List (String × Nat))
  | [], l => .error (.keyError l)
  | p :: d, l =>
    if p.1 = l then .ok ((p.1, p.2 + 1) :: d)
    else
      match dictIncr d l with
      | .error err => .error err
      | .ok d2 => .ok (p :: d2)

/-- Dict lookup, `node_count[label]`: the value stored for a key, if any. -/
def dictGet : List (String × Nat) → String → Option Nat
  | [], _ => none
  | p :: d, l => if p.1 = l then some p.2 else dictGet d l

/-- Lines 65–66 of the source: increment both endpoint counts of one edge
(`node_count[edge.node1.label] += 1` then `node_count[edge.node2.label] += 1`);
the second statement is not executed when the first raises. -/
def bumpEdge (d : List (String × Nat)) (e : TemporalEdge) :
    Except PyErr (List (String × Nat)) :=
  match dictIncr d e.node1 with
  | .error err => .error err
  | .ok d1 => dictIncr d1 e.node2

/-- Line 63–66 of the source: the edge loop, threading `node_count`. -/
def rawDegreeCountsAux : List TemporalEdge → List (String × Nat) →
    Except PyErr (List (String × Nat))
  | [], d => .ok d
  | e :: es, d =>
    match bumpEdge d e with
    | .error err => .error err
    | .ok d1 => rawDegreeCountsAux es d1

/-- The raw (pre-normalization) degree counts: initialize a zero count for
every working label, then run the edge loop. -/
def rawDegreeCounts (es : List TemporalEdge) (ls : List String) :
    Except PyErr (List (String × Nat)) :=
  rawDegreeCountsAux es (dictInit ls)

/-- Line 71 of the source: the dict comprehension
`{label: value / normalization_factor for label, value in node_count.items()}`;
Python raises `ZeroDivisionError` on an integer division by zero, which
happens at the first item whenever the factor is `0` and the dict is
non-empty. -/
def normalizeCounts (d : List (String × Nat)) (nf : Int) :
    Except PyErr (List (String × Rat)) :=
  match d with
  | [] => .ok []
  | p :: rest =>
    if nf = 0 then .error .zeroDivisionError
    else
      match normalizeCounts rest nf with
      | .error err => .error err
      | .ok out => .ok ((p.1, (p.2 : Rat) / (nf : Rat)) :: out)

/-- The comparison used on line 74–76 of the source: sort key is the score
(`item[1]`), in reverse (descending) order. -/
@[reducible] def degGe (a b : String × Rat) : Prop :=
  b.2 ≤ a.2

instance : DecidableRel degGe :=
  fun a b => inferInstanceAs (Decidable (b.2 ≤ a.2))

instance : IsTotal (String × Rat) degGe :=
  ⟨fun a b => le_total b.2 a.2⟩

instance : IsTrans (String × Rat) degGe :=
  ⟨fun _ _ _ hab hbc => le_trans hbc hab⟩

/-- Lines 74–76 of the source: Python `sorted(items, key=item[1], reverse=True)`
is a stable sort by descending value; insertion sort with `degGe` is exactly
that stable descending sort. -/
def sortDescStable (l : List (String × Rat)) : List (String × Rat) :=
  l.insertionSort degGe

/-- The whole function body up to (but excluding) the final sort: interval
restriction, label defaulting, the edge-counting loop, and the normalization
branch.  With `normalize` false the source never assigns `temporal_degree`,
so the sort on line 74 raises `UnboundLocalError`; that error is produced
here, at the point where the unbound name would be read. -/
def preSorted (graph : TemporalGraph) (labels : Option (List String))
    (intervals : Option (List (Int × Int))) (normalize : Bool) :
    Except PyErr (List (String × Rat)) :=
  let g := applyIntervals graph intervals
  let ls := workingLabels g labels
  match rawDegreeCounts g.edges ls with
  | .error err => .error err
  | .ok node_count =>
    if normalize then
      match edgesStart g.edges, edgesEnd g.edges with
      | some s, some e =>
        normalizeCounts node_count (((g.nodes.length : Int) - 1) * (e - s))
      | _, _ => .error .emptyEdgesError
    else .error .unboundLocalError

/-- `temporal_degree_centrality(graph, labels, intervals, normalize)`
(lines 6–78 of `overtime/algorithms/centrality/degree.py`): restrict, count,
normalize, and return the scores sorted by descending value. -/
def temporal_degree_centrality (graph : TemporalGraph) (labels : Option (List String))
    (intervals : Option (List (Int × Int))) (normalize : Bool) :
    Except PyErr (List (String × Rat)) :=
  match preSorted graph labels intervals normalize with
  | .error err => .error err
  | .ok td => .ok (sortDescStable td)

/-- Sum of the stored degree counts of a count dict. -/
def dictValuesSum (d : List (String × Nat)) : Nat :=
  (d.map (fun p => p.2)).sum

/-- How often a label occurs as an endpoint in a list of edges (a self-loop
counts twice, exactly as the two increments on lines 65–66 do). -/
def endpointCount : List TemporalEdge → String → Nat
  | [], _ => 0
  | e :: es, l =>
    (if l = e.node1 then 1 else 0) + (if l = e.node2 then 1 else 0) + endpointCount es l

/-- The graph invariant from the data model: every edge's endpoints exist in
the node list. -/
@[reducible] def TemporalGraph.wf (g : TemporalGraph) : Prop :=
  ∀ e ∈ g.edges, e.node1 ∈ g.nodes ∧ e.node2 ∈ g.nodes

/-! ## Lemmas about the count dictionary -/

theorem mem_keys_dictInsert0 (d : List (String × Nat)) (l x : String) :
    x ∈ (dictInsert0 d l).map Prod.fst ↔ x ∈ d.map Prod.fst ∨ x = l := by
  unfold dictInsert0
  by_cases h : d.any (fun p => p.1 == l)
  · simp only [if_pos h]
    constructor
    · exact Or.inl
    · rintro (hx | rfl)
      · exact hx
      · simp only [List.any_eq_true, beq_iff_eq] at h
        obtain ⟨p, hp, hpl⟩ := h
        exact hpl ▸ List.mem_map_of_mem Prod.fst hp
  · rw [if_neg h]
    simp

theorem all_zero_dictInsert0 (d : List (String × Nat)) (l : String)
    (hz : ∀ p ∈ d, p.2 = 0) : ∀ p ∈ dictInsert0 d l, p.2 = 0 := by
  intro p hp
  unfold dictInsert0 at hp
  by_cases h : d.any (fun q => q.1 == l)
  · exact hz p (by simpa [if_pos h] using hp)
  · rw [if_neg h, List.mem_append] at hp
    rcases hp with hp | hp
    · exact hz p hp
    · simp only [List.mem_singleton] at hp
      simp [hp]

theorem mem_keys_foldl_dictInsert0 (ls : List String) (d : List (String × Nat)) (x : String) :
    x ∈ (ls.foldl dictInsert0 d).map Prod.fst ↔ x ∈ d.map Prod.fst ∨ x ∈ ls := by
  induction ls generalizing d with
  | nil => simp
  | cons l rest ih =>
    rw [List.foldl_cons, ih, mem_keys_dictInsert0]
    simp only [List.mem_cons]
    tauto

theorem all_zero_foldl_dictInsert0 (ls : List String) (d : List (String × Nat))
    (hz : ∀ p ∈ d, p.2 = 0) : ∀ p ∈ ls.foldl dictInsert0 d, p.2 = 0 := by
  induction ls generalizing d with
  | nil => exact hz
  | cons l rest ih => exact ih _ (all_zero_dictInsert0 d l hz)

theorem mem_keys_dictInit (ls : List String) (x : String) :
    x ∈ (dictInit ls).map Prod.fst ↔ x ∈ ls := by
  unfold dictInit
  rw [mem_keys_foldl_dictInsert0]
  simp

theorem all_zero_dictInit (ls : List String) : ∀ p ∈ dictInit ls, p.2 = 0 :=
  all_zero_foldl_dictInsert0 ls [] (by simp)

theorem dictGet_of_all_zero (d : List (String × Nat)) (hz : ∀ p ∈ d, p.2 = 0) (x : String) :
    dictGet d x = if x ∈ d.map Prod.fst then some 0 else none := by
  induction d with
  | nil => simp [dictGet]
  | cons p rest ih =>
    have hp0 : p.2 = 0 := hz p (List.mem_cons_self p rest)
    have hzr : ∀ q ∈ rest, q.2 = 0 := fun q hq => hz q (List.mem_cons_of_mem p hq)
    by_cases hx : p.1 = x
    · simp [dictGet, hx, hp0]
    · rw [show dictGet (p :: rest) x = dictGet rest x by simp [dictGet, hx], ih hzr]
      have : (x ∈ (p :: rest).map Prod.fst) ↔ (x ∈ rest.map Prod.fst) := by
        simp only [List.map_cons, List.mem_cons]
        constructor
        · rintro (rfl | hr)
          · exact absurd rfl hx
          · exact hr
        · exact Or.inr
      simp only [this]

theorem dictGet_dictInit (ls : List String) (x : String) :
    dictGet (dictInit ls) x = if x ∈ ls then some 0 else none := by
  rw [dictGet_of_all_zero (dictInit ls) (all_zero_dictInit ls) x]
  by_cases hx : x ∈ ls
  · rw [if_pos ((mem_keys_dictInit ls x).mpr hx), if_pos hx]
  · rw [if_neg (fun hc => hx ((mem_keys_dictInit ls x).mp hc)), if_neg hx]

theorem dictIncr_keys (d : List (String × Nat)) (l : String) (d' : List (String × Nat))
    (h : dictIncr d l = .ok d') : d'.map Prod.fst = d.map Prod.fst := by
  induction d generalizing d' with
  | nil => simp [dictIncr] at h
  | cons p rest ih =>
    by_cases hp : p.1 = l
    · simp only [dictIncr, if_pos hp, Except.ok.injEq] at h
      subst h
      simp
    · simp only [dictIncr, if_neg hp] at h
      split at h
      · exact absurd h (by simp)
      · rename_i d2 hrec
        simp only [Except.ok.injEq] at h
        subst h
        simp [ih d2 hrec]

theorem dictIncr_ok_of_mem (d : List (String × Nat)) (l : String)
    (h : l ∈ d.map Prod.fst) :
    ∃ d', dictIncr d l = .ok d' ∧ dictValuesSum d' = dictValuesSum d + 1 := by
  induction d with
  | nil => simp at h
  | cons p rest ih =>
    by_cases hp : p.1 = l
    · refine ⟨(p.1, p.2 + 1) :: rest, by simp [dictIncr, hp], ?_⟩
      simp only [dictValuesSum, List.map_cons, List.sum_cons]
      omega
    · have hmem : l ∈ rest.map Prod.fst := by
        simp only [List.map_cons, List.mem_cons] at h
        rcases h with h | h
        · exact absurd h.symm hp
        · exact h
      obtain ⟨d2, hok, hsum⟩ := ih hmem
      refine ⟨p :: d2, by simp [dictIncr, hp, hok], ?_⟩
      simp only [dictValuesSum, List.map_cons, List.sum_cons] at hsum ⊢
      omega

theorem dictGet_dictIncr (d : List (String × Nat)) (l : String) (d' : List (String × Nat))
    (h : dictIncr d l = .ok d') (x : String) :
    dictGet d' x = if x = l then (dictGet d x).map (fun w => w + 1) else dictGet d x := by
  induction d generalizing d' with
  | nil => simp [dictIncr] at h
  | cons p rest ih =>
    by_cases hp : p.1 = l
    · simp only [dictIncr, if_pos hp, Except.ok.injEq] at h
      subst h
      by_cases hx : p.1 = x
      · have hxl : x = l := hx ▸ hp
        simp [dictGet, hx, hxl]
      · have hxl : ¬(x = l) := fun hc => hx (hc ▸ hp.symm ▸ rfl)
        simp [dictGet, hx, hxl]
    · simp only [dictIncr, if_neg hp] at h
      split at h
      · exact absurd h (by simp)
      · rename_i d2 hrec
        simp only [Except.ok.injEq] at h
        subst h
        by_cases hx : p.1 = x
        · have hxl : ¬(x = l) := fun hc => hp (hc ▸ hx)
          simp [dictGet, hx, hxl]
        · simp only [show dictGet (p :: d2) x = dictGet d2 x by simp [dictGet, hx],
            show dictGet (p :: rest) x = dictGet rest x by simp [dictGet, hx]]
          exact ih d2 hrec

/-! ## Lemmas about the edge-counting loop -/

theorem bumpEdge_keys (d : List (String × Nat)) (e : TemporalEdge) (d' : List (String × Nat))
    (h : bumpEdge d e = .ok d') : d'.map Prod.fst = d.map Prod.fst := by
  unfold bumpEdge at h
  split at h
  · exact absurd h (by simp)
  · rename_i d1 h1
    exact (dictIncr_keys d1 e.node2 d' h).trans (dictIncr_keys d e.node1 d1 h1)

theorem bumpEdge_ok_of_mem (d : List (String × Nat)) (e : TemporalEdge)
    (h1 : e.node1 ∈ d.map Prod.fst) (h2 : e.node2 ∈ d.map Prod.fst) :
    ∃ d', bumpEdge d e = .ok d' ∧ dictValuesSum d' = dictValuesSum d + 2 := by
  obtain ⟨d1, hok1, hsum1⟩ := dictIncr_ok_of_mem d e.node1 h1
  have hk1 : d1.map Prod.fst = d.map Prod.fst := dictIncr_keys d e.node1 d1 hok1
  obtain ⟨d2, hok2, hsum2⟩ := dictIncr_ok_of_mem d1 e.node2 (hk1 ▸ h2)
  refine ⟨d2, ?_, by omega⟩
  unfold bumpEdge
  rw [hok1]
  exact hok2

theorem dictGet_bumpEdge (d : List (String × Nat)) (e : TemporalEdge) (d' : List (String × Nat))
    (h : bumpEdge d e = .ok d') (x : String) :
    dictGet d' x = (dictGet d x).map
      (fun w => w + ((if x = e.node1 then 1 else 0) + (if x = e.node2 then 1 else 0))) := by
  unfold bumpEdge at h
  split at h
  · exact absurd h (by simp)
  · rename_i d1 h1
    rw [dictGet_dictIncr d1 e.node2 d' h x, dictGet_dictIncr d e.node1 d1 h1 x]
    by_cases hx1 : x = e.node1
    · by_cases hx2 : x = e.node2
      · simp only [if_pos hx1, if_pos hx2]
        rcases dictGet d x with _ | w <;> simp
      · simp only [if_pos hx1, if_neg hx2]
    · by_cases hx2 : x = e.node2
      · simp only [if_pos hx2, if_neg hx1]
      · simp only [if_neg hx1, if_neg hx2]
        rcases dictGet d x with _ | w <;> simp

theorem rawDegreeCountsAux_keys (es : List TemporalEdge) (d d' : List (String × Nat))
    (h : rawDegreeCountsAux es d = .ok d') : d'.map Prod.fst = d.map Prod.fst := by
  induction es generalizing d with
  | nil =>
    simp only [rawDegreeCountsAux, Except.ok.injEq] at h
    exact h ▸ rfl
  | cons e es ih =>
    simp only [rawDegreeCountsAux] at h
    split at h
    · exact absurd h (by simp)
    · rename_i d1 h1
      exact (ih d1 h).trans (bumpEdge_keys d e d1 h1)

theorem rawDegreeCountsAux_ok_of_mem (es : List TemporalEdge) (d : List (String × Nat))
    (h : ∀ e ∈ es, e.node1 ∈ d.map Prod.fst ∧ e.node2 ∈ d.map Prod.fst) :
    ∃ d', rawDegreeCountsAux es d = .ok d' ∧
      dictValuesSum d' = dictValuesSum d + 2 * es.length := by
  induction es generalizing d with
  | nil => exact ⟨d, rfl, by simp⟩
  | cons e es ih =>
    obtain ⟨he1, he2⟩ := h e (List.mem_cons_self e es)
    obtain ⟨d1, hok1, hsum1⟩ := bumpEdge_ok_of_mem d e he1 he2
    have hk1 : d1.map Prod.fst = d.map Prod.fst := bumpEdge_keys d e d1 hok1
    have hrest : ∀ e' ∈ es, e'.node1 ∈ d1.map Prod.fst ∧ e'.node2 ∈ d1.map Prod.fst := by
      intro e' he'
      rw [hk1]
      exact h e' (List.mem_cons_of_mem e he')
    obtain ⟨d', hok, hsum⟩ := ih d1 hrest
    refine ⟨d', ?_, ?_⟩
    · simp only [rawDegreeCountsAux]
      rw [hok1]
      exact hok
    · rw [hsum, hsum1]
      simp [List.length_cons]
      omega

theorem dictGet_rawDegreeCountsAux (es : List TemporalEdge) (d d' : List (String × Nat))
    (h : rawDegreeCountsAux es d = .ok d') (x : String) :
    dictGet d' x = (dictGet d x).map (fun w => w + endpointCount es x) := by
  induction es generalizing d with
  | nil =>
    simp only [rawDegreeCountsAux, Except.ok.injEq] at h
    subst h
    rcases hdx : dictGet d x with _ | w <;> simp [hdx, endpointCount]
  | cons e es ih =>
    simp only [rawDegreeCountsAux] at h
    split at h
    · exact absurd h (by simp)
    · rename_i d1 h1
      rw [ih d1 h, dictGet_bumpEdge d e d1 h1 x]
      rcases hdx : dictGet d x with _ | w
      · simp [hdx, endpointCount]
      · simp [hdx, endpointCount]
        omega

/-! ## Lemmas about normalization -/

theorem normalizeCounts_keys (d : List (String × Nat)) (nf : Int)
    (out : List (String × Rat)) (h : normalizeCounts d nf = .ok out) :
    out.map Prod.fst = d.map Prod.fst := by
  induction d generalizing out with
  | nil =>
    simp only [normalizeCounts, Except.ok.injEq] at h
    subst h
    rfl
  | cons p rest ih =>
    simp only [normalizeCounts] at h
    split at h
    · exact absurd h (by simp)
    · split at h
      · exact absurd h (by simp)
      · rename_i out1 hrec
        simp only [Except.ok.injEq] at h
        subst h
        simp [ih out1 hrec]

theorem mem_normalizeCounts (d : List (String × Nat)) (nf : Int)
    (out : List (String × Rat)) (h : normalizeCounts d nf = .ok out)
    (p : String × Rat) (hp : p ∈ out) :
    ∃ raw, (p.1, raw) ∈ d ∧ p.2 = (raw : Rat) / (nf : Rat) := by
  induction d generalizing out with
  | nil =>
    simp only [normalizeCounts, Except.ok.injEq] at h
    subst h
    simp at hp
  | cons q rest ih =>
    simp only [normalizeCounts] at h
    split at h
    · exact absurd h (by simp)
    · split at h
      · exact absurd h (by simp)
      · rename_i out1 hrec
        simp only [Except.ok.injEq] at h
        subst h
        rcases List.mem_cons.mp hp with hp | hp
        · subst hp
          exact ⟨q.2, List.mem_cons_self _ _, rfl⟩
        · obtain ⟨raw, hraw, hval⟩ := ih out1 hrec hp
          exact ⟨raw, List.mem_cons_of_mem q hraw, hval⟩

theorem normalizeCounts_zero_of_ne_nil (d : List (String × Nat)) (hd : d ≠ []) :
    normalizeCounts d 0 = .error .zeroDivisionError := by
  cases d with
  | nil => exact absurd rfl hd
  | cons p rest => simp [normalizeCounts]

/-! ## Lemmas about endpoint counting and interval restriction -/

theorem endpointCount_filter_le (p : TemporalEdge → Bool) (es : List TemporalEdge)
    (l : String) : endpointCount (es.filter p) l ≤ endpointCount es l := by
  induction es with
  | nil => simp [endpointCount]
  | cons e es ih =>
    by_cases hp : p e
    · rw [List.filter_cons_of_pos hp]
      simp only [endpointCount]
      omega
    · rw [List.filter_cons_of_neg (by simpa using hp)]
      simp only [endpointCount]
      omega

theorem applyIntervals_nodes (g : TemporalGraph) (intervals : Option (List (Int × Int))) :
    (applyIntervals g intervals).nodes = g.nodes := by
  cases intervals with
  | none => rfl
  | some ivs =>
    by_cases h : ivs.isEmpty <;>
      simp [applyIntervals, TemporalGraph.get_temporal_subgraph, h]

theorem applyIntervals_edges (g : TemporalGraph) (intervals : Option (List (Int × Int))) :
    (applyIntervals g intervals).edges = g.edges ∨
      ∃ p, (applyIntervals g intervals).edges = g.edges.filter p := by
  cases intervals with
  | none => exact Or.inl rfl
  | some ivs =>
    by_cases h : ivs.isEmpty
    · exact Or.inl (by simp [applyIntervals, h])
    · exact Or.inr ⟨fun e => inIntervals ivs e.time, by simp [applyIntervals, h,
        TemporalGraph.get_temporal_subgraph]⟩

/-! ## Lemmas about the descending stable sort -/

theorem filter_orderedInsert_value (x : String × Rat) (s : List (String × Rat)) (v : Rat) :
    (s.orderedInsert degGe x).filter (fun p => decide (p.2 = v)) =
      if x.2 = v then x :: s.filter (fun p => decide (p.2 = v))
      else s.filter (fun p => decide (p.2 = v)) := by
  induction s with
  | nil => by_cases hx : x.2 = v <;> simp [List.orderedInsert, hx]
  | cons b s ih =>
    by_cases hr : degGe x b
    · rw [List.orderedInsert, if_pos hr]
      by_cases hx : x.2 = v <;> simp [List.filter_cons, hx]
    · rw [List.orderedInsert, if_neg hr]
      have hlt : x.2 < b.2 := lt_of_not_le hr
      by_cases hx : x.2 = v
      · have hb : ¬(b.2 = v) := fun hb => absurd (le_of_eq (hb.trans hx.symm)) hr
        simp [List.filter_cons, hb, ih, hx]
      · by_cases hb : b.2 = v <;> simp [List.filter_cons, hb, ih, hx]

theorem filter_sortDescStable (l : List (String × Rat)) (v : Rat) :
    (sortDescStable l).filter (fun p => decide (p.2 = v)) =
      l.filter (fun p => decide (p.2 = v)) := by
  induction l with
  | nil => rfl
  | cons x l ih =>
    unfold sortDescStable at ih ⊢
    rw [List.insertionSort, filter_orderedInsert_value x (l.insertionSort degGe) v, ih]
    by_cases hx : x.2 = v <;> simp [List.filter_cons, hx]

theorem sortDescStable_sorted (l : List (String × Rat)) :
    (sortDescStable l).Pairwise degGe :=
  List.sorted_insertionSort degGe l

theorem sortDescStable_perm (l : List (String × Rat)) : (sortDescStable l).Perm l :=
  List.perm_insertionSort degGe l

theorem dictValuesSum_dictInit (ls : List String) : dictValuesSum (dictInit ls) = 0 := by
  unfold dictValuesSum
  apply List.sum_eq_zero
  intro x hx
  obtain ⟨p, hp, rfl⟩ := List.mem_map.mp hx
  exact all_zero_dictInit ls p hp

theorem rawDegreeCountsAux_ne_nil (e : TemporalEdge) (es : List TemporalEdge)
    (d0 d : List (String × Nat)) (h : rawDegreeCountsAux (e :: es) d0 = .ok d) :
    d ≠ [] := by
  have hkeys := rawDegreeCountsAux_keys (e :: es) d0 d h
  simp only [rawDegreeCountsAux] at h
  split at h
  · exact absurd h (by simp)
  · rename_i d1 h1
    have hd0 : d0 ≠ [] := by
      rintro rfl
      simp [bumpEdge, dictIncr] at h1
    intro hdnil
    rw [hdnil] at hkeys
    exact hd0 (List.map_eq_nil_iff.mp hkeys.symm)

theorem preSorted_ok_keys (g : TemporalGraph) (labels : Option (List String))
    (intervals : Option (List (Int × Int))) (normalize : Bool)
    (pre : List (String × Rat)) (h : preSorted g labels intervals normalize = .ok pre) :
    pre.map Prod.fst =
      (dictInit (workingLabels (applyIntervals g intervals) labels)).map Prod.fst := by
  rcases hraw : rawDegreeCounts (applyIntervals g intervals).edges
      (workingLabels (applyIntervals g intervals) labels) with err | d
  · simp [preSorted, hraw] at h
  · have hdkeys := rawDegreeCountsAux_keys _ _ _ hraw
    cases normalize with
    | false => simp [preSorted, hraw] at h
    | true =>
      rcases hs : edgesStart (applyIntervals g intervals).edges with _ | s
      · simp [preSorted, hraw, hs] at h
      · rcases he : edgesEnd (applyIntervals g intervals).edges with _ | e
        · simp [preSorted, hraw, hs, he] at h
        · simp only [preSorted, hraw, hs, he, if_true] at h
          exact (normalizeCounts_keys d _ pre h).trans hdkeys

/-! ## Concrete graphs used as refutation inputs and witnesses -/

/-- The spec's example scenario: nodes `{A, B, C}`, edges
`[(A,B,t=1), (B,C,t=2), (A,C,t=3)]`. -/
def exampleGraph : TemporalGraph :=
  ⟨["A", "B", "C"], [⟨"A", "B", 1⟩, ⟨"B", "C", 2⟩, ⟨"A", "C", 3⟩]⟩

/-- Two nodes joined by a single edge, so the restricted temporal span is zero. -/
def zeroDurationGraph : TemporalGraph :=
  ⟨["A", "B"], [⟨"A", "B", 5⟩]⟩

/-- Two nodes joined by one edge inside and one edge outside the window `(0,3)`. -/
def restrictionGraph : TemporalGraph :=
  ⟨["A", "B"], [⟨"A", "B", 1⟩, ⟨"A", "B", 5⟩]⟩

/-- Two nodes with two parallel edges one time unit apart: the normalization
factor is `(2 - 1) * (1 - 0) = 1`. -/
def unitFactorGraph : TemporalGraph :=
  ⟨["A", "B"], [⟨"A", "B", 0⟩, ⟨"A", "B", 1⟩]⟩

/-! ## The claims -/

/-- C1: refuted on the code.  The claim says `normalize=False` returns the raw
degree counts; in the source `temporal_degree` is assigned only inside the
`if normalize:` block, so with `normalize=False` the sort on line 74 reads an
unbound local name and every call raises `UnboundLocalError` — in particular
the spec's own example scenario, which this theorem evaluates. -/
theorem c1_normalize_false_raises_unbound_local :
    temporal_degree_centrality exampleGraph none (some [(0, 3)]) false =
      .error .unboundLocalError := rfl

/-- C2: refuted on the code.  The claim says an edge endpoint outside the
working label set is silently not tracked; the source increments a plain dict
entry (`node_count[edge.node2.label] += 1`), which raises `KeyError` for the
untracked endpoint `B` instead of skipping it. -/
theorem c2_untracked_endpoint_raises_key_error :
    temporal_degree_centrality ⟨["A", "B"], [⟨"A", "B", 1⟩]⟩ (some ["A"]) none true =
      .error (.keyError "B") := rfl

/-- C8: determinism — the function is a pure function of
`(graph, labels, intervals, normalize)`, so two calls on the same arguments
return the identical ranked mapping. -/
theorem c8_deterministic (g : TemporalGraph) (labels : Option (List String))
    (intervals : Option (List (Int × Int))) (normalize : Bool) :
    temporal_degree_centrality g labels intervals normalize =
      temporal_degree_centrality g labels intervals normalize := rfl

/-- C10: an empty labels list is treated exactly like omitting labels: the
source tests `if not labels:`, and Python's empty list is falsy, so both
calls default the working label set to all node labels of the (possibly
restricted) graph and agree on every graph, interval choice and normalize
flag. -/
theorem c10_empty_labels_eq_none (g : TemporalGraph)
    (intervals : Option (List (Int × Int))) (normalize : Bool) :
    temporal_degree_centrality g (some []) intervals normalize =
      temporal_degree_centrality g none intervals normalize := rfl

/-- C4: conservation — when every edge of the (possibly interval-restricted)
graph has both endpoints in the working label set, the edge loop succeeds and
the raw degree counts sum to `2 *` the number of restricted edges. -/
theorem c4_conservation_sum_eq_twice_edges (g : TemporalGraph)
    (labels : Option (List String)) (intervals : Option (List (Int × Int)))
    (h : ∀ e ∈ (applyIntervals g intervals).edges,
      e.node1 ∈ workingLabels (applyIntervals g intervals) labels ∧
      e.node2 ∈ workingLabels (applyIntervals g intervals) labels) :
    ∃ d, rawDegreeCounts (applyIntervals g intervals).edges
        (workingLabels (applyIntervals g intervals) labels) = .ok d ∧
      dictValuesSum d = 2 * (applyIntervals g intervals).edges.length := by
  have hmem : ∀ e ∈ (applyIntervals g intervals).edges,
      e.node1 ∈ (dictInit (workingLabels (applyIntervals g intervals) labels)).map Prod.fst ∧
      e.node2 ∈ (dictInit (workingLabels (applyIntervals g intervals) labels)).map Prod.fst := by
    intro e he
    rw [mem_keys_dictInit, mem_keys_dictInit]
    exact h e he
  obtain ⟨d, hok, hsum⟩ := rawDegreeCountsAux_ok_of_mem (applyIntervals g intervals).edges
    (dictInit (workingLabels (applyIntervals g intervals) labels)) hmem
  refine ⟨d, hok, ?_⟩
  rw [hsum, dictValuesSum_dictInit]
  omega

/-- C4 witness: the spec's example graph restricted to `(0,3)` keeps two
edges, all endpoints are tracked, and the raw counts sum to `4 = 2 * 2`. -/
theorem c4_conservation_witness :
    (∀ e ∈ (applyIntervals exampleGraph (some [(0, 3)])).edges,
      e.node1 ∈ workingLabels (applyIntervals exampleGraph (some [(0, 3)])) none ∧
      e.node2 ∈ workingLabels (applyIntervals exampleGraph (some [(0, 3)])) none) ∧
    ∃ d, rawDegreeCounts (applyIntervals exampleGraph (some [(0, 3)])).edges
        (workingLabels (applyIntervals exampleGraph (some [(0, 3)])) none) = .ok d ∧
      dictValuesSum d = 2 * (applyIntervals exampleGraph (some [(0, 3)])).edges.length :=
  ⟨by decide, c4_conservation_sum_eq_twice_edges exampleGraph none (some [(0, 3)]) (by decide)⟩

/-- C3: with `normalize=true`, a (possibly restricted) graph that satisfies
the data-model invariant and is degenerate — at most one node, or a temporal
span of zero (in particular an empty restricted edge set, where the min/max
timestamp query itself fails) — always produces an explicit error, never a
numeric result. -/
theorem c3_degenerate_normalization_errors (g : TemporalGraph)
    (labels : Option (List String)) (intervals : Option (List (Int × Int)))
    (hwf : (applyIntervals g intervals).wf)
    (hdeg : (applyIntervals g intervals).nodes.length ≤ 1 ∨
      edgesStart (applyIntervals g intervals).edges =
        edgesEnd (applyIntervals g intervals).edges) :
    ∃ err, temporal_degree_centrality g labels intervals true = .error err := by
  rcases hraw : rawDegreeCounts (applyIntervals g intervals).edges
      (workingLabels (applyIntervals g intervals) labels) with err | d
  · exact ⟨err, by simp [temporal_degree_centrality, preSorted, hraw]⟩
  · cases hes : (applyIntervals g intervals).edges with
    | nil =>
      refine ⟨.emptyEdgesError, ?_⟩
      rw [hes] at hraw
      simp [temporal_degree_centrality, preSorted, hraw, hes, edgesStart, edgesEnd, timestamps]
    | cons e rest =>
      have hdne : d ≠ [] := rawDegreeCountsAux_ne_nil e rest _ d (by rw [← hes]; exact hraw)
      have hstart : edgesStart (applyIntervals g intervals).edges =
          some ((rest.map (fun x => x.time)).foldl min e.time) := by
        rw [hes]; rfl
      have hend : edgesEnd (applyIntervals g intervals).edges =
          some ((rest.map (fun x => x.time)).foldl max e.time) := by
        rw [hes]; rfl
      have hnf : (((applyIntervals g intervals).nodes.length : Int) - 1) *
          ((rest.map (fun x => x.time)).foldl max e.time -
            (rest.map (fun x => x.time)).foldl min e.time) = 0 := by
        rcases hdeg with hdeg | hdeg
        · have hne : (applyIntervals g intervals).nodes ≠ [] := by
            intro hnil
            have := (hwf e (by rw [hes]; exact List.mem_cons_self e rest)).1
            rw [hnil] at this
            exact absurd this (List.not_mem_nil _)
          have hlen : (applyIntervals g intervals).nodes.length = 1 := by
            have := List.length_pos.mpr hne
            omega
          rw [hlen]
          simp
        · rw [hstart, hend] at hdeg
          simp only [Option.some.injEq] at hdeg
          rw [hdeg]
          simp
      refine ⟨.zeroDivisionError, ?_⟩
      simp only [temporal_degree_centrality, preSorted, hraw, hstart, hend, if_true]
      rw [hnf, normalizeCounts_zero_of_ne_nil d hdne]

/-- C3 witness: two nodes with a single edge — the restricted temporal span
is `5 - 5 = 0` and the call errors out (with a `ZeroDivisionError`). -/
theorem c3_degenerate_witness :
    (applyIntervals zeroDurationGraph none).wf ∧
    ((applyIntervals zeroDurationGraph none).nodes.length ≤ 1 ∨
      edgesStart (applyIntervals zeroDurationGraph none).edges =
        edgesEnd (applyIntervals zeroDurationGraph none).edges) ∧
    ∃ err, temporal_degree_centrality zeroDurationGraph none none true = .error err :=
  ⟨by decide, by decide,
    c3_degenerate_normalization_errors zeroDurationGraph none none (by decide) (by decide)⟩

/-- C5: on every call that returns a result, the returned mapping is
non-increasing in score, and entries with equal scores keep the relative
order they had in the pre-sort mapping (the descending sort is stable). -/
theorem c5_sorted_and_stable (g : TemporalGraph) (labels : Option (List String))
    (intervals : Option (List (Int × Int))) (normalize : Bool)
    (out : List (String × Rat))
    (h : temporal_degree_centrality g labels intervals normalize = .ok out) :
    ∃ pre, preSorted g labels intervals normalize = .ok pre ∧
      out.Pairwise (fun a b => b.2 ≤ a.2) ∧
      ∀ v : Rat, out.filter (fun p => decide (p.2 = v)) =
        pre.filter (fun p => decide (p.2 = v)) := by
  rcases hpre : preSorted g labels intervals normalize with err | pre
  · simp only [temporal_degree_centrality, hpre] at h
    exact absurd h (by simp)
  · simp only [temporal_degree_centrality, hpre, Except.ok.injEq] at h
    subst h
    exact ⟨pre, rfl, sortDescStable_sorted pre, fun v => filter_sortDescStable pre v⟩

/-- C5 witness: a concrete successful call (two nodes, two parallel edges,
normalization factor 1) whose output is sorted and stable. -/
theorem c5_sorted_and_stable_witness :
    temporal_degree_centrality unitFactorGraph none none true = .ok [("A", 2), ("B", 2)] ∧
    ∃ pre, preSorted unitFactorGraph none none true = .ok pre ∧
      List.Pairwise (fun a b => b.2 ≤ a.2) [(("A" : String), (2 : Rat)), ("B", 2)] ∧
      ∀ v : Rat, List.filter (fun p => decide (p.2 = v)) [(("A" : String), (2 : Rat)), ("B", 2)] =
        pre.filter (fun p => decide (p.2 = v)) := by
  have hcomp : temporal_degree_centrality unitFactorGraph none none true =
      .ok [("A", 2), ("B", 2)] := by
    simp [temporal_degree_centrality, preSorted, applyIntervals, workingLabels, rawDegreeCounts,
      rawDegreeCountsAux, dictInit, dictInsert0, dictIncr, bumpEdge, edgesStart, edgesEnd,
      timestamps, normalizeCounts, sortDescStable, degGe, List.insertionSort, List.orderedInsert,
      unitFactorGraph, List.min?, List.max?]
  exact ⟨hcomp, c5_sorted_and_stable unitFactorGraph none none true [("A", 2), ("B", 2)] hcomp⟩

/-- C6: restricting to a sub-interval never increases any label's raw degree
count — whenever both the restricted and the unrestricted edge loops succeed
and both track the label, the restricted count is at most the unrestricted
one. -/
theorem c6_restriction_monotone (g : TemporalGraph) (labels : Option (List String))
    (intervals : Option (List (Int × Int))) (lab : String)
    (dR dU : List (String × Nat)) (vR vU : Nat)
    (hR : rawDegreeCounts (applyIntervals g intervals).edges
        (workingLabels (applyIntervals g intervals) labels) = .ok dR)
    (hU : rawDegreeCounts g.edges (workingLabels g labels) = .ok dU)
    (hvR : dictGet dR lab = some vR) (hvU : dictGet dU lab = some vU) :
    vR ≤ vU := by
  have hlab : workingLabels (applyIntervals g intervals) labels = workingLabels g labels := by
    unfold workingLabels
    rw [applyIntervals_nodes]
  rw [hlab] at hR
  unfold rawDegreeCounts at hR hU
  have hgR := dictGet_rawDegreeCountsAux _ _ _ hR lab
  have hgU := dictGet_rawDegreeCountsAux _ _ _ hU lab
  rw [dictGet_dictInit] at hgR hgU
  by_cases hmem : lab ∈ workingLabels g labels
  · rw [if_pos hmem] at hgR hgU
    rw [hgR] at hvR
    rw [hgU] at hvU
    simp only [Option.map_some', Option.some.injEq, Nat.zero_add] at hvR hvU
    rw [← hvR, ← hvU]
    rcases applyIntervals_edges g intervals with heq | ⟨pfil, heq⟩
    · rw [heq]
    · rw [heq]
      exact endpointCount_filter_le pfil g.edges lab
  · rw [if_neg hmem] at hgR
    rw [hgR] at hvR
    simp at hvR

/-- C6 witness: restricting `restrictionGraph` to the window `(0,3)` drops the
edge at `t=5`, and label `A`'s raw count falls from 2 to 1. -/
theorem c6_restriction_monotone_witness :
    rawDegreeCounts (applyIntervals restrictionGraph (some [(0, 3)])).edges
        (workingLabels (applyIntervals restrictionGraph (some [(0, 3)])) none) =
      .ok [("A", 1), ("B", 1)] ∧
    rawDegreeCounts restrictionGraph.edges (workingLabels restrictionGraph none) =
      .ok [("A", 2), ("B", 2)] ∧
    dictGet [("A", 1), ("B", 1)] "A" = some 1 ∧
    dictGet [("A", 2), ("B", 2)] "A" = some 2 ∧ 1 ≤ 2 :=
  ⟨rfl, rfl, rfl, rfl,
    c6_restriction_monotone restrictionGraph none (some [(0, 3)]) "A"
      [("A", 1), ("B", 1)] [("A", 2), ("B", 2)] 1 2 rfl rfl rfl rfl⟩

/-- C7: on every successful `normalize=true` call, each returned score is the
label's raw degree count divided by
`(restricted node count - 1) * (restricted max timestamp - restricted min timestamp)`,
with both quantities taken from the interval-restricted graph. -/
theorem c7_normalization_formula (g : TemporalGraph) (labels : Option (List String))
    (intervals : Option (List (Int × Int))) (out : List (String × Rat))
    (h : temporal_degree_centrality g labels intervals true = .ok out)
    (p : String × Rat) (hp : p ∈ out) :
    ∃ d raw s e,
      rawDegreeCounts (applyIntervals g intervals).edges
          (workingLabels (applyIntervals g intervals) labels) = .ok d ∧
      (p.1, raw) ∈ d ∧
      edgesStart (applyIntervals g intervals).edges = some s ∧
      edgesEnd (applyIntervals g intervals).edges = some e ∧
      p.2 = (raw : Rat) /
        (((((applyIntervals g intervals).nodes.length : Int) - 1) * (e - s) : Int) : Rat) := by
  rcases hpre : preSorted g labels intervals true with err | pre
  · simp only [temporal_degree_centrality, hpre] at h
    exact absurd h (by simp)
  · simp only [temporal_degree_centrality, hpre, Except.ok.injEq] at h
    subst h
    have hp2 : p ∈ pre := (sortDescStable_perm pre).mem_iff.mp hp
    rcases hraw : rawDegreeCounts (applyIntervals g intervals).edges
        (workingLabels (applyIntervals g intervals) labels) with err | d
    · simp [preSorted, hraw] at hpre
    · rcases hs : edgesStart (applyIntervals g intervals).edges with _ | s
      · simp [preSorted, hraw, hs] at hpre
      · rcases he : edgesEnd (applyIntervals g intervals).edges with _ | e
        · simp [preSorted, hraw, hs, he] at hpre
        · simp only [preSorted, hraw, hs, he, if_true] at hpre
          obtain ⟨raw, hmem, hval⟩ := mem_normalizeCounts d _ pre hpre p hp2
          exact ⟨d, raw, s, e, rfl, hmem, rfl, rfl, hval⟩

/-- C7 witness: in the concrete successful call on `unitFactorGraph`, the
returned score 2 of label `A` is its raw count 2 divided by the factor
`(2 - 1) * (1 - 0) = 1`. -/
theorem c7_normalization_formula_witness :
    ∃ d raw s e,
      rawDegreeCounts (applyIntervals unitFactorGraph none).edges
          (workingLabels (applyIntervals unitFactorGraph none) none) = .ok d ∧
      ((("A" : String), (2 : Rat)).1, raw) ∈ d ∧
      edgesStart (applyIntervals unitFactorGraph none).edges = some s ∧
      edgesEnd (applyIntervals unitFactorGraph none).edges = some e ∧
      ((("A" : String), (2 : Rat))).2 = (raw : Rat) /
        (((((applyIntervals unitFactorGraph none).nodes.length : Int) - 1) * (e - s) : Int) : Rat) := by
  have hcomp : temporal_degree_centrality unitFactorGraph none none true =
      .ok [("A", 2), ("B", 2)] := by
    simp [temporal_degree_centrality, preSorted, applyIntervals, workingLabels, rawDegreeCounts,
      rawDegreeCountsAux, dictInit, dictInsert0, dictIncr, bumpEdge, edgesStart, edgesEnd,
      timestamps, normalizeCounts, sortDescStable, degGe, List.insertionSort, List.orderedInsert,
      unitFactorGraph, List.min?, List.max?]
  exact c7_normalization_formula unitFactorGraph none none [("A", 2), ("B", 2)] hcomp
    ("A", 2) (by simp)

/-- C9: the function is total and atomic over its explicit result: every call
either returns a complete ranked mapping — one entry per tracked label, as
initialized on line 60 — or a single error, and nothing else; the embedding
is a pure function of its arguments, so the input graph is never mutated. -/
theorem c9_complete_or_error (g : TemporalGraph) (labels : Option (List String))
    (intervals : Option (List (Int × Int))) (normalize : Bool) :
    (∃ out, temporal_degree_centrality g labels intervals normalize = .ok out ∧
      List.Perm (out.map Prod.fst)
        ((dictInit (workingLabels (applyIntervals g intervals) labels)).map Prod.fst)) ∨
    (∃ err, temporal_degree_centrality g labels intervals normalize = .error err) := by
  rcases hpre : preSorted g labels intervals normalize with err | pre
  · exact Or.inr ⟨err, by simp only [temporal_degree_centrality, hpre]⟩
  · refine Or.inl ⟨sortDescStable pre, by simp only [temporal_degree_centrality, hpre], ?_⟩
    have h1 : List.Perm ((sortDescStable pre).map Prod.fst) (pre.map Prod.fst) :=
      (sortDescStable_perm pre).map Prod.fst
    rw [preSorted_ok_keys g labels intervals normalize pre hpre] at h1
    exact h1

end Overtime
